import Mathlib

/-!
Verification development for the intraday energy trading simulation engine
(`src/sim.py` of the repository).  The engine's data model and the five
mutation phases of `TradingSimulation.step` are embedded as executable Lean
functions; timestamps are modelled as `Int`, prices and quantities as `Int`
(the engine never computes with them, it only copies them), and the
status / event strings are kept as `String` exactly as the source stores
them.  The pluggable strategies and the pluggable clearing mechanism are
modelled as arbitrary per-step inputs: a clearing mechanism is any function
of the current time and the active-order mapping, and each strategy's
`update_orders` result is an arbitrary `Decisions` value.
-/

namespace EnergySim

/-- Embedding of the `Order` object of `src/sim.py` (lines 8-56): one field
per Python attribute set in `Order.__init__`. -/
structure Order where
  price : Int
  quantity : Int
  contract_time : Int
  side : String
  order_id : String
  strategy_id : Option String
  submission_time : Option Int
  status : String
  execution_price : Option Int
  execution_time : Option Int
  update_count : Nat
  event_type : String
deriving Repr, DecidableEq

/-- Embedding of `Order.__init__` (lines 22-44): the constructor validates
`side` (raising `ValueError` otherwise, modelled as `none`) and initialises
`status = "active"`, `event_type = "submitted"`, `update_count = 0` and the
execution fields to `None`.  The `uuid4` fallback for a missing `order_id`
is modelled by the caller supplying the generated id. -/
def mkOrder (price quantity contract_time : Int) (side : String)
    (order_id : String) (submission_time : Option Int)
    (strategy_id : Option String) : Option Order :=
  if side = "buy" ∨ side = "sell" then
    some { price := price, quantity := quantity, contract_time := contract_time,
           side := side, order_id := order_id, strategy_id := strategy_id,
           submission_time := submission_time, status := "active",
           execution_price := none, execution_time := none,
           update_count := 0, event_type := "submitted" }
  else none

/-- The engine state owned by `TradingSimulation` (lines 65-86):
`current_time`, the fixed `time_step`, the `active_orders` dict (modelled as
an insertion-ordered association list, as a Python dict is) and the
`order_history` list. -/
structure SimState where
  current_time : Int
  time_step : Int
  active_orders : List (String × Order)
  order_history : List Order
deriving Repr, DecidableEq

/-- `k in d` on a Python dict. -/
def containsKey (k : String) (m : List (String × Order)) : Bool :=
  m.any (fun p => p.1 == k)

/-- `d[k]` / `d.get(k)` on a Python dict. -/
def dictLookup (k : String) (m : List (String × Order)) : Option Order :=
  (m.find? (fun p => p.1 == k)).map Prod.snd

/-- `d[k] = v` on a Python dict: replace in place if the key exists,
otherwise append at the end (Python dicts preserve insertion order). -/
def dictInsert (k : String) (v : Order) (m : List (String × Order)) :
    List (String × Order) :=
  if containsKey k m then m.map (fun p => if p.1 == k then (k, v) else p)
  else m ++ [(k, v)]

/-- `d.pop(k, None)` on a Python dict: remove the key if present. -/
def dictPop (k : String) (m : List (String × Order)) :
    List (String × Order) :=
  m.filter (fun p => !(p.1 == k))

/-- The history snapshot built in `_expire_contracts` (lines 159-162):
deep copy with `status = "expired"`, `event_type = "expired"`,
`execution_time = current_time`. -/
def expiredSnap (t : Int) (o : Order) : Order :=
  { o with status := "expired", event_type := "expired",
           execution_time := some t }

/-- The live order as mutated by `_expire_contracts` (lines 166-167) before
being appended to the returned `expired_contracts` list: only `status` and
`execution_time` are changed (`event_type` is left as it was). -/
def expiredLive (t : Int) (o : Order) : Order :=
  { o with status := "expired", execution_time := some t }

/-- The history snapshot built in `_process_clearing_results`
(lines 177-180). -/
def filledSnap (t : Int) (o : Order) : Order :=
  { o with status := "filled", event_type := "filled",
           execution_time := some t }

/-- The history snapshot built in `_process_updated_orders` (lines 209-212).
Note that the source sets `status = "updated"`, not only
`event_type = "updated"`. -/
def updatedSnap (t : Int) (o : Order) : Order :=
  { o with status := "updated", event_type := "updated",
           execution_time := some t }

/-- The history snapshot built in `_process_canceled_orders`
(lines 225-228). -/
def canceledSnap (t : Int) (o : Order) : Order :=
  { o with status := "canceled", event_type := "canceled",
           execution_time := some t }

/-- The loop body of `_expire_contracts` (lines 152-171): iterate over a
snapshot of `active_orders.items()`; for every order with
`contract_time < current_time` append the history snapshot, collect the
mutated live order, and pop it from the live dict.  Returns the
`expired_contracts` list and the updated state. -/
def expireLoop (t : Int) :
    List (String × Order) → SimState → List Order × SimState
  | [], s => ([], s)
  | (k, o) :: rest, s =>
    if o.contract_time < t then
      let s1 : SimState :=
        { s with order_history := s.order_history ++ [expiredSnap t o],
                 active_orders := dictPop k s.active_orders }
      let r := expireLoop t rest s1
      (expiredLive t o :: r.1, r.2)
    else
      expireLoop t rest s

/-- Embedding of `TradingSimulation._expire_contracts`. -/
def expireContracts (s : SimState) : List Order × SimState :=
  expireLoop s.current_time s.active_orders s

/-- Embedding of `TradingSimulation._process_clearing_results`
(lines 173-186): for every order returned by the clearing mechanism, append
a `filled` snapshot and pop the order's id from `active_orders` (a no-op if
the id is absent). -/
def processClearingResults (t : Int) : List Order → SimState → SimState
  | [], s => s
  | o :: rest, s =>
    processClearingResults t rest
      { s with order_history := s.order_history ++ [filledSnap t o],
               active_orders := dictPop o.order_id s.active_orders }

/-- `if not order.submission_time: order.submission_time = current_time`
(lines 192-193). -/
def stampSubmission (t : Int) : Option Int → Option Int
  | none => some t
  | some u => some u

/-- Embedding of `TradingSimulation._process_new_orders` (lines 188-201):
stamp the submission time if absent, set `event_type = "submitted"`, insert
into `active_orders` (dict assignment), and append a deep copy to the
history. -/
def processNewOrders (t : Int) : List Order → SimState → SimState
  | [], s => s
  | o :: rest, s =>
    let o2 : Order :=
      { o with submission_time := stampSubmission t o.submission_time,
               event_type := "submitted" }
    processNewOrders t rest
      { s with active_orders := dictInsert o2.order_id o2 s.active_orders,
               order_history := s.order_history ++ [o2] }

/-- Embedding of `TradingSimulation._process_updated_orders`
(lines 203-217): only if the updated order's id is currently active, append
a snapshot of the original (pre-update) order, set the incoming order's
`update_count` to the original's plus one, and store it under the id. -/
def processUpdatedOrders (t : Int) : List Order → SimState → SimState
  | [], s => s
  | u :: rest, s =>
    match dictLookup u.order_id s.active_orders with
    | some original =>
      let u2 : Order := { u with update_count := original.update_count + 1 }
      processUpdatedOrders t rest
        { s with order_history := s.order_history ++ [updatedSnap t original],
                 active_orders := dictInsert u.order_id u2 s.active_orders }
    | none => processUpdatedOrders t rest s

/-- Embedding of `TradingSimulation._process_canceled_orders`
(lines 219-232): only if the id is currently active, append a `canceled`
snapshot of the stored order and pop the id. -/
def processCanceledOrders (t : Int) : List String → SimState → SimState
  | [], s => s
  | cid :: rest, s =>
    match dictLookup cid s.active_orders with
    | some o =>
      processCanceledOrders t rest
        { s with order_history := s.order_history ++ [canceledSnap t o],
                 active_orders := dictPop cid s.active_orders }
    | none => processCanceledOrders t rest s

/-- One strategy's `update_orders` result (lines 135-138): new orders,
updated orders, and ids to cancel. -/
structure Decisions where
  new_orders : List Order
  updated_orders : List Order
  canceled_orders : List String
deriving Repr, DecidableEq

/-- The decision-application part of `step` (lines 134-138): for each
strategy in order, process its new, then updated, then canceled orders. -/
def applyDecisions (t : Int) : List Decisions → SimState → SimState
  | [], s => s
  | d :: rest, s =>
    applyDecisions t rest
      (processCanceledOrders t d.canceled_orders
        (processUpdatedOrders t d.updated_orders
          (processNewOrders t d.new_orders s)))

/-- A clearing mechanism's `clear(current_time, active_orders)`
(`src/clearing.py` lines 17-27): any function from the time and the
active-order mapping to a list of orders. -/
abbrev ClearFn := Int → List (String × Order) → List Order

/-- Embedding of `TradingSimulation.step` (lines 103-141): expire, then
clear (only when a clearing mechanism is configured), then apply every
strategy's decisions, then advance the clock by `time_step`.  The strategy
feedback phase (lines 119-131) only mutates strategy-local state, so it
does not appear in the engine state transition.  Returns the new state
together with this step's `expired_orders` and `cleared_orders` lists. -/
def step (clear : Option ClearFn) (ds : List Decisions) (s : SimState) :
    SimState × List Order × List Order :=
  let t := s.current_time
  let er := expireContracts s
  let cr : List Order × SimState :=
    match clear with
    | some f =>
      let c := f t er.2.active_orders
      (c, processClearingResults t c er.2)
    | none => ([], er.2)
  let s3 := applyDecisions t ds cr.2
  ({ s3 with current_time := s3.current_time + s3.time_step }, er.1, cr.1)

/-- A run of the simulation loop (lines 88-101): any finite number of
steps, each with the decisions the strategies return at that step. -/
def runSteps (clear : Option ClearFn) :
    List (List Decisions) → SimState → SimState
  | [], s => s
  | ds :: rest, s => runSteps clear rest (step clear ds s).1

/-- The state built by `TradingSimulation.__init__` (lines 65-86): empty
active set and empty history, clock at `start_time`. -/
def initState (start timeStep : Int) : SimState :=
  { current_time := start, time_step := timeStep,
    active_orders := [], order_history := [] }

/-- The terminal statuses of the spec: filled, canceled, expired. -/
def terminalStatus (st : String) : Bool :=
  st == "filled" || st == "canceled" || st == "expired"

/-- The key list of the active-order dict. -/
def keysOf (m : List (String × Order)) : List String := m.map Prod.fst

/-- The latest history snapshot carrying a given order id, if any. -/
def latestSnapshot (oid : String) (hist : List Order) : Option Order :=
  (hist.filter (fun o => o.order_id == oid)).getLast?

/-- The id's latest history snapshot exists and is non-terminal. -/
def LatestNonTerminal (oid : String) (hist : List Order) : Prop :=
  ∃ o, latestSnapshot oid hist = some o ∧ terminalStatus o.status = false

/-- The active/history consistency invariant: an id is a key of
`active_orders` exactly when its latest history snapshot exists and is
non-terminal. -/
def ActiveIffNonTerminal (s : SimState) : Prop :=
  ∀ oid : String,
    oid ∈ keysOf s.active_orders ↔ LatestNonTerminal oid s.order_history

/-- Every stored order's `order_id` agrees with its dict key (true of every
state the engine can build, since the engine always inserts under
`order.order_id`). -/
abbrev KeysMatch (m : List (String × Order)) : Prop :=
  ∀ p ∈ m, p.2.order_id = p.1

/-- The dict keys are pairwise distinct (true of a Python dict by
construction). -/
abbrev NodupKeys (m : List (String × Order)) : Prop :=
  (keysOf m).Nodup

/-- No history record is a fill. -/
def NoFilledRecords (hist : List Order) : Prop :=
  ∀ o ∈ hist, o.status ≠ "filled" ∧ o.event_type ≠ "filled"

/-- All new orders handed to the engine in one step carry the
constructor-assigned status `"active"` (`Order.__init__` line 40; new
orders are brand-new constructor outputs per the strategy contract). -/
abbrev NewOrdersActive (ds : List Decisions) : Prop :=
  ∀ d ∈ ds, ∀ o ∈ d.new_orders, o.status = "active"

/-- Number of cancel requests the engine accepts when processing a cancel
list against an active-order dict (mirrors the acceptance test of
`_process_canceled_orders`). -/
def countAcceptedCancels : List String → List (String × Order) → Nat
  | [], _ => 0
  | cid :: rest, m =>
    if containsKey cid m then countAcceptedCancels rest (dictPop cid m) + 1
    else countAcceptedCancels rest m

/-- A concrete constructor-shaped order, used in concrete evaluations. -/
def sampleOrder (oid : String) (ct : Int) : Order :=
  { price := 10, quantity := 1, contract_time := ct, side := "buy",
    order_id := oid, strategy_id := some "s1", submission_time := none,
    status := "active", execution_price := none, execution_time := none,
    update_count := 0, event_type := "submitted" }

/-- A clearing mechanism that fills every active order. -/
def fillAll : ClearFn := fun _ m => m.map Prod.snd

/-- The state `_expire_contracts` passes to the rest of its loop after
expiring one order. -/
def expireStep (t : Int) (k : String) (o : Order) (s : SimState) : SimState :=
  { s with order_history := s.order_history ++ [expiredSnap t o],
           active_orders := dictPop k s.active_orders }

/-- A concrete engine state with one active order, used in concrete
evaluations. -/
def witnessState : SimState :=
  { current_time := 3, time_step := 1,
    active_orders := [("a", sampleOrder "a" 9)],
    order_history := [sampleOrder "a" 9] }

/-- A concrete engine state holding one strictly-past and one future
order, used in concrete evaluations. -/
def pastFutureState : SimState :=
  { current_time := 5, time_step := 1,
    active_orders := [("p", sampleOrder "p" 3), ("q", sampleOrder "q" 7)],
    order_history := [] }

/-- Step-1 decisions of a concrete run: one strategy submits order "a". -/
def resubStep1 : List Decisions :=
  [{ new_orders := [sampleOrder "a" 100], updated_orders := [],
     canceled_orders := [] }]

/-- Step-2 decisions of the concrete run: the strategy stays silent while
the clearing mechanism fills order "a". -/
def resubStep2 : List Decisions :=
  [{ new_orders := [], updated_orders := [], canceled_orders := [] }]

/-- Step-3 decisions of the concrete run: the strategy submits a brand-new
order reusing the already-filled id "a". -/
def resubStep3 : List Decisions :=
  [{ new_orders := [sampleOrder "a" 200], updated_orders := [],
     canceled_orders := [] }]

/-! ### Dictionary lemmas -/

theorem containsKey_iff (k : String) (m : List (String × Order)) :
    containsKey k m = true ↔ k ∈ keysOf m := by
  simp only [containsKey, keysOf, List.any_eq_true, List.mem_map, beq_iff_eq]

theorem mem_keysOf_dictPop (x k : String) (m : List (String × Order)) :
    x ∈ keysOf (dictPop k m) ↔ x ∈ keysOf m ∧ x ≠ k := by
  simp only [keysOf, dictPop, List.mem_map, List.mem_filter]
  constructor
  · rintro ⟨p, ⟨hp, hpk⟩, rfl⟩
    refine ⟨⟨p, hp, rfl⟩, ?_⟩
    simpa using hpk
  · rintro ⟨⟨p, hp, rfl⟩, hne⟩
    exact ⟨p, ⟨hp, by simpa using hne⟩, rfl⟩

theorem keysOf_dictInsert_of_contains (k : String) (v : Order)
    (m : List (String × Order)) (h : containsKey k m = true) :
    keysOf (dictInsert k v m) = keysOf m := by
  simp only [dictInsert, h, if_true, keysOf, List.map_map]
  apply List.map_congr_left
  intro p _
  by_cases hpk : p.1 == k
  · simp only [Function.comp, hpk, if_true]
    exact (beq_iff_eq.mp hpk).symm
  · simp [Function.comp, hpk]

theorem keysOf_dictInsert_of_not_contains (k : String) (v : Order)
    (m : List (String × Order)) (h : containsKey k m = false) :
    keysOf (dictInsert k v m) = keysOf m ++ [k] := by
  simp [dictInsert, h, keysOf]

theorem mem_keysOf_dictInsert (x k : String) (v : Order)
    (m : List (String × Order)) :
    x ∈ keysOf (dictInsert k v m) ↔ x ∈ keysOf m ∨ x = k := by
  by_cases h : containsKey k m
  · rw [keysOf_dictInsert_of_contains k v m h]
    constructor
    · exact Or.inl
    · rintro (hx | rfl)
      · exact hx
      · exact (containsKey_iff x m).mp h
  · rw [keysOf_dictInsert_of_not_contains k v m (by simpa using h)]
    simp

theorem dictLookup_some_mem {k : String} {m : List (String × Order)}
    {o : Order} (h : dictLookup k m = some o) : (k, o) ∈ m := by
  simp only [dictLookup, Option.map_eq_some'] at h
  obtain ⟨p, hp, rfl⟩ := h
  have hmem := List.mem_of_find?_eq_some hp
  have hk : p.1 = k := by simpa using List.find?_some hp
  obtain ⟨a, b⟩ := p
  subst hk
  exact hmem

theorem dictLookup_some_contains {k : String} {m : List (String × Order)}
    {o : Order} (h : dictLookup k m = some o) : containsKey k m = true := by
  rw [containsKey_iff]
  exact List.mem_map.mpr ⟨(k, o), dictLookup_some_mem h, rfl⟩

theorem dictLookup_some_id {k : String} {m : List (String × Order)}
    {o : Order} (hkm : KeysMatch m) (h : dictLookup k m = some o) :
    o.order_id = k :=
  hkm (k, o) (dictLookup_some_mem h)

theorem dictLookup_none_not_mem {k : String} {m : List (String × Order)}
    (h : dictLookup k m = none) : k ∉ keysOf m := by
  intro hk
  obtain ⟨p, hp, hpk⟩ := List.mem_map.mp hk
  have : m.find? (fun p => p.1 == k) = none := by
    simpa [dictLookup] using h
  have := List.find?_eq_none.mp this p hp
  simp [hpk] at this

theorem dictLookup_eq_none_of_not_mem {k : String}
    {m : List (String × Order)} (h : k ∉ keysOf m) :
    dictLookup k m = none := by
  simp only [dictLookup, Option.map_eq_none']
  rw [List.find?_eq_none]
  intro p hp
  simp only [beq_iff_eq]
  intro hpk
  exact h (List.mem_map.mpr ⟨p, hp, hpk⟩)

theorem keysMatch_dictPop {m : List (String × Order)} (k : String)
    (hkm : KeysMatch m) : KeysMatch (dictPop k m) :=
  fun p hp => hkm p (List.mem_of_mem_filter hp)

theorem keysMatch_dictInsert {m : List (String × Order)} {k : String}
    {v : Order} (hkm : KeysMatch m) (hv : v.order_id = k) :
    KeysMatch (dictInsert k v m) := by
  intro p hp
  simp only [dictInsert] at hp
  split at hp
  · obtain ⟨q, hq, hqp⟩ := List.mem_map.mp hp
    by_cases hqk : q.1 == k
    · simp only [hqk, if_true] at hqp
      subst hqp
      exact hv
    · simp only [hqk, if_false] at hqp
      subst hqp
      exact hkm q hq
  · rcases List.mem_append.mp hp with hq | hq
    · exact hkm p hq
    · simp only [List.mem_singleton] at hq
      subst hq
      exact hv

theorem nodupKeys_dictPop {m : List (String × Order)} (k : String)
    (h : NodupKeys m) : NodupKeys (dictPop k m) := by
  have hsub : List.Sublist (keysOf (dictPop k m)) (keysOf m) :=
    (List.filter_sublist m).map Prod.fst
  exact h.sublist hsub

theorem nodupKeys_dictInsert {m : List (String × Order)} (k : String)
    (v : Order) (h : NodupKeys m) : NodupKeys (dictInsert k v m) := by
  by_cases hc : containsKey k m
  · rw [NodupKeys, keysOf_dictInsert_of_contains k v m hc]
    exact h
  · have hc' : containsKey k m = false := by simpa using hc
    rw [NodupKeys, keysOf_dictInsert_of_not_contains k v m hc']
    rw [List.nodup_append]
    refine ⟨h, List.nodup_singleton k, ?_⟩
    intro x hx hxk
    simp only [List.mem_singleton] at hxk
    subst hxk
    rw [← containsKey_iff] at hx
    rw [hc'] at hx
    cases hx

/-! ### Latest-snapshot lemmas -/

theorem latestSnapshot_append_eq (oid : String) (h : List Order) (o : Order)
    (heq : o.order_id = oid) : latestSnapshot oid (h ++ [o]) = some o := by
  simp [latestSnapshot, List.filter_append, heq, List.getLast?_concat]

theorem latestSnapshot_append_ne (oid : String) (h : List Order) (o : Order)
    (hne : o.order_id ≠ oid) :
    latestSnapshot oid (h ++ [o]) = latestSnapshot oid h := by
  simp [latestSnapshot, List.filter_append, hne]

/-! ### Phase characterizations -/

theorem expireLoop_cons_pos (t : Int) (k : String) (o : Order)
    (rest : List (String × Order)) (s : SimState) (h : o.contract_time < t) :
    expireLoop t ((k, o) :: rest) s =
      (expiredLive t o :: (expireLoop t rest (expireStep t k o s)).1,
        (expireLoop t rest (expireStep t k o s)).2) := by
  simp only [expireLoop]
  rw [if_pos h]
  rfl

theorem expireLoop_cons_neg (t : Int) (k : String) (o : Order)
    (rest : List (String × Order)) (s : SimState)
    (h : ¬ o.contract_time < t) :
    expireLoop t ((k, o) :: rest) s = expireLoop t rest s := by
  simp only [expireLoop]
  rw [if_neg h]

theorem expireLoop_clock (t : Int) (items : List (String × Order)) :
    ∀ s : SimState, (expireLoop t items s).2.current_time = s.current_time
      ∧ (expireLoop t items s).2.time_step = s.time_step := by
  induction items with
  | nil => intro s; exact ⟨rfl, rfl⟩
  | cons p rest ih =>
    intro s
    obtain ⟨k, o⟩ := p
    by_cases h : o.contract_time < t
    · rw [expireLoop_cons_pos t k o rest s h]
      exact ih _
    · rw [expireLoop_cons_neg t k o rest s h]
      exact ih _

theorem expireLoop_expired (t : Int) (items : List (String × Order)) :
    ∀ s : SimState,
      (expireLoop t items s).1 =
        (items.filter (fun p => decide (p.2.contract_time < t))).map
          (fun p => expiredLive t p.2) := by
  induction items with
  | nil => intro s; rfl
  | cons p rest ih =>
    intro s
    obtain ⟨k, o⟩ := p
    by_cases h : o.contract_time < t
    · rw [expireLoop_cons_pos t k o rest s h]
      simp [List.filter_cons, h, ih]
    · rw [expireLoop_cons_neg t k o rest s h]
      simp [List.filter_cons, h, ih]

theorem expireLoop_history (t : Int) (items : List (String × Order)) :
    ∀ s : SimState,
      (expireLoop t items s).2.order_history =
        s.order_history ++
          (items.filter (fun p => decide (p.2.contract_time < t))).map
            (fun p => expiredSnap t p.2) := by
  induction items with
  | nil => intro s; simp [expireLoop]
  | cons p rest ih =>
    intro s
    obtain ⟨k, o⟩ := p
    by_cases h : o.contract_time < t
    · rw [expireLoop_cons_pos t k o rest s h]
      simp [List.filter_cons, h, ih, expireStep, List.append_assoc]
    · rw [expireLoop_cons_neg t k o rest s h]
      simp [List.filter_cons, h, ih]

theorem expireLoop_mem_active (t : Int) (items : List (String × Order)) :
    ∀ (s : SimState) (q : String × Order),
      q ∈ (expireLoop t items s).2.active_orders ↔
        q ∈ s.active_orders ∧
          q.1 ∉ (items.filter (fun p => decide (p.2.contract_time < t))).map
            Prod.fst := by
  induction items with
  | nil => intro s q; simp [expireLoop]
  | cons p rest ih =>
    intro s q
    obtain ⟨k, o⟩ := p
    by_cases h : o.contract_time < t
    · rw [expireLoop_cons_pos t k o rest s h]
      have hfc : ((k, o) :: rest).filter
          (fun p => decide (p.2.contract_time < t)) =
          (k, o) :: rest.filter (fun p => decide (p.2.contract_time < t)) := by
        simp [List.filter_cons, h]
      rw [hfc]
      simp only [List.map_cons, List.mem_cons]
      rw [ih]
      simp only [expireStep, dictPop, List.mem_filter]
      constructor
      · rintro ⟨⟨hq, hqk⟩, hrest⟩
        have hqk' : q.1 ≠ k := by simpa using hqk
        refine ⟨hq, ?_⟩
        rintro (hk | hk)
        · exact hqk' hk
        · exact hrest hk
      · rintro ⟨hq, hni⟩
        have hqk' : q.1 ≠ k := fun hk => hni (Or.inl hk)
        exact ⟨⟨hq, by simpa using hqk'⟩, fun hk => hni (Or.inr hk)⟩
    · rw [expireLoop_cons_neg t k o rest s h]
      have hfc : ((k, o) :: rest).filter
          (fun p => decide (p.2.contract_time < t)) =
          rest.filter (fun p => decide (p.2.contract_time < t)) := by
        simp [List.filter_cons, h]
      rw [hfc]
      exact ih s q

theorem processClearingResults_clock (t : Int) (c : List Order) :
    ∀ s : SimState,
      (processClearingResults t c s).current_time = s.current_time
        ∧ (processClearingResults t c s).time_step = s.time_step := by
  induction c with
  | nil => intro s; exact ⟨rfl, rfl⟩
  | cons o rest ih => intro s; exact ih _

theorem processClearingResults_history (t : Int) (c : List Order) :
    ∀ s : SimState,
      (processClearingResults t c s).order_history =
        s.order_history ++ c.map (filledSnap t) := by
  induction c with
  | nil => intro s; simp [processClearingResults]
  | cons o rest ih =>
    intro s
    simp only [processClearingResults, ih, List.map_cons, List.append_assoc,
      List.singleton_append]

theorem processClearingResults_mem_active (t : Int) (c : List Order) :
    ∀ (s : SimState) (q : String × Order),
      q ∈ (processClearingResults t c s).active_orders ↔
        q ∈ s.active_orders ∧ q.1 ∉ c.map Order.order_id := by
  induction c with
  | nil => intro s q; simp [processClearingResults]
  | cons o rest ih =>
    intro s q
    simp only [processClearingResults, List.map_cons, List.mem_cons]
    rw [ih]
    simp only [dictPop, List.mem_filter]
    constructor
    · rintro ⟨⟨hq, hqk⟩, hrest⟩
      have hqk' : q.1 ≠ o.order_id := by simpa using hqk
      refine ⟨hq, ?_⟩
      rintro (hk | hk)
      · exact hqk' hk
      · exact hrest hk
    · rintro ⟨hq, hni⟩
      have hqk' : q.1 ≠ o.order_id := fun hk => hni (Or.inl hk)
      exact ⟨⟨hq, by simpa using hqk'⟩, fun hk => hni (Or.inr hk)⟩

theorem processNewOrders_clock (t : Int) (ns : List Order) :
    ∀ s : SimState,
      (processNewOrders t ns s).current_time = s.current_time
        ∧ (processNewOrders t ns s).time_step = s.time_step := by
  induction ns with
  | nil => intro s; exact ⟨rfl, rfl⟩
  | cons o rest ih => intro s; exact ih _

theorem processNewOrders_history (t : Int) (ns : List Order) :
    ∀ s : SimState,
      (processNewOrders t ns s).order_history =
        s.order_history ++ ns.map (fun o =>
          { o with submission_time := stampSubmission t o.submission_time,
                   event_type := "submitted" }) := by
  induction ns with
  | nil => intro s; simp [processNewOrders]
  | cons o rest ih =>
    intro s
    simp only [processNewOrders, ih, List.map_cons, List.append_assoc,
      List.singleton_append]

theorem mem_keysOf_processNewOrders (t : Int) (ns : List Order) :
    ∀ (s : SimState) (x : String),
      x ∈ keysOf (processNewOrders t ns s).active_orders ↔
        x ∈ keysOf s.active_orders ∨ x ∈ ns.map Order.order_id := by
  induction ns with
  | nil => intro s x; simp [processNewOrders]
  | cons o rest ih =>
    intro s x
    simp only [processNewOrders, List.map_cons, List.mem_cons]
    rw [ih]
    rw [mem_keysOf_dictInsert]
    constructor
    · rintro ((hx | hx) | hx)
      · exact Or.inl hx
      · exact Or.inr (Or.inl hx)
      · exact Or.inr (Or.inr hx)
    · rintro (hx | hx | hx)
      · exact Or.inl (Or.inl hx)
      · exact Or.inl (Or.inr hx)
      · exact Or.inr hx

theorem processUpdatedOrders_clock (t : Int) (us : List Order) :
    ∀ s : SimState,
      (processUpdatedOrders t us s).current_time = s.current_time
        ∧ (processUpdatedOrders t us s).time_step = s.time_step := by
  induction us with
  | nil => intro s; exact ⟨rfl, rfl⟩
  | cons u rest ih =>
    intro s
    cases hl : dictLookup u.order_id s.active_orders with
    | some original => simp only [processUpdatedOrders, hl]; exact ih _
    | none => simp only [processUpdatedOrders, hl]; exact ih _

theorem keysOf_processUpdatedOrders (t : Int) (us : List Order) :
    ∀ s : SimState,
      keysOf (processUpdatedOrders t us s).active_orders =
        keysOf s.active_orders := by
  induction us with
  | nil => intro s; rfl
  | cons u rest ih =>
    intro s
    cases hl : dictLookup u.order_id s.active_orders with
    | some original =>
      simp only [processUpdatedOrders, hl]
      rw [ih]
      exact keysOf_dictInsert_of_contains _ _ _ (dictLookup_some_contains hl)
    | none => simp only [processUpdatedOrders, hl]; exact ih _

theorem processCanceledOrders_clock (t : Int) (ids : List String) :
    ∀ s : SimState,
      (processCanceledOrders t ids s).current_time = s.current_time
        ∧ (processCanceledOrders t ids s).time_step = s.time_step := by
  induction ids with
  | nil => intro s; exact ⟨rfl, rfl⟩
  | cons cid rest ih =>
    intro s
    cases hl : dictLookup cid s.active_orders with
    | some o => simp only [processCanceledOrders, hl]; exact ih _
    | none => simp only [processCanceledOrders, hl]; exact ih _

theorem dictLookup_none_contains {k : String} {m : List (String × Order)}
    (h : dictLookup k m = none) : containsKey k m = false := by
  cases hc : containsKey k m
  · rfl
  · exact absurd ((containsKey_iff k m).mp hc) (dictLookup_none_not_mem h)

theorem containsKey_eq_any_keys (k : String) (m : List (String × Order)) :
    containsKey k m = (keysOf m).any (fun x => x == k) := by
  induction m with
  | nil => rfl
  | cons p rest ih =>
    simp only [containsKey, keysOf, List.any_cons, List.map_cons] at ih ⊢
    rw [ih]

theorem containsKey_congr {m1 m2 : List (String × Order)}
    (h : keysOf m1 = keysOf m2) (k : String) :
    containsKey k m1 = containsKey k m2 := by
  rw [containsKey_eq_any_keys, containsKey_eq_any_keys, h]

theorem processUpdatedOrders_history_length (t : Int) (us : List Order) :
    ∀ s : SimState,
      (processUpdatedOrders t us s).order_history.length =
        s.order_history.length +
          (us.filter
            (fun u => containsKey u.order_id s.active_orders)).length := by
  induction us with
  | nil => intro s; simp [processUpdatedOrders]
  | cons u rest ih =>
    intro s
    cases hl : dictLookup u.order_id s.active_orders with
    | some original =>
      have hc : containsKey u.order_id s.active_orders = true :=
        dictLookup_some_contains hl
      simp only [processUpdatedOrders, hl]
      rw [ih]
      have hkeys : keysOf (dictInsert u.order_id
          { u with update_count := original.update_count + 1 }
          s.active_orders) = keysOf s.active_orders :=
        keysOf_dictInsert_of_contains _ _ _ hc
      rw [List.filter_congr (fun v _ => containsKey_congr hkeys v.order_id)]
      rw [List.filter_cons]
      simp only [hc, if_true, List.length_cons, List.length_append,
        List.length_nil]
      omega
    | none =>
      have hc : containsKey u.order_id s.active_orders = false :=
        dictLookup_none_contains hl
      simp only [processUpdatedOrders, hl]
      rw [ih, List.filter_cons]
      simp [hc]

theorem processCanceledOrders_history_length (t : Int) (ids : List String) :
    ∀ s : SimState,
      (processCanceledOrders t ids s).order_history.length =
        s.order_history.length +
          countAcceptedCancels ids s.active_orders := by
  induction ids with
  | nil => intro s; simp [processCanceledOrders, countAcceptedCancels]
  | cons cid rest ih =>
    intro s
    cases hl : dictLookup cid s.active_orders with
    | some o =>
      have hc : containsKey cid s.active_orders = true :=
        dictLookup_some_contains hl
      simp only [processCanceledOrders, hl]
      rw [ih]
      simp only [countAcceptedCancels, hc, if_true, List.length_append,
        List.length_cons, List.length_nil]
      omega
    | none =>
      have hc : containsKey cid s.active_orders = false :=
        dictLookup_none_contains hl
      simp only [processCanceledOrders, hl]
      rw [ih]
      simp [countAcceptedCancels, hc]

theorem processUpdatedOrders_untouched (t : Int) (us : List Order) :
    ∀ (s : SimState) (x : String), KeysMatch s.active_orders →
      x ∉ keysOf s.active_orders →
      (processUpdatedOrders t us s).order_history.filter
          (fun o => o.order_id == x) =
        s.order_history.filter (fun o => o.order_id == x)
      ∧ x ∉ keysOf (processUpdatedOrders t us s).active_orders
      ∧ KeysMatch (processUpdatedOrders t us s).active_orders := by
  induction us with
  | nil => intro s x hkm hx; exact ⟨rfl, hx, hkm⟩
  | cons u rest ih =>
    intro s x hkm hx
    cases hl : dictLookup u.order_id s.active_orders with
    | some original =>
      have hc : containsKey u.order_id s.active_orders = true :=
        dictLookup_some_contains hl
      have hid : original.order_id = u.order_id :=
        dictLookup_some_id hkm hl
      have hcon : u.order_id ∈ keysOf s.active_orders :=
        (containsKey_iff _ _).mp hc
      have hne : original.order_id ≠ x := by
        rw [hid]
        intro hux
        exact hx (hux ▸ hcon)
      have hkeys : keysOf (dictInsert u.order_id
          { u with update_count := original.update_count + 1 }
          s.active_orders) = keysOf s.active_orders :=
        keysOf_dictInsert_of_contains _ _ _ hc
      simp only [processUpdatedOrders, hl]
      obtain ⟨ha, hb, hkm'⟩ := ih
        { s with order_history := s.order_history ++ [updatedSnap t original],
                 active_orders := dictInsert u.order_id
                   { u with update_count := original.update_count + 1 }
                   s.active_orders } x
        (keysMatch_dictInsert hkm rfl)
        (by rw [show keysOf (dictInsert u.order_id
            { u with update_count := original.update_count + 1 }
            s.active_orders) = keysOf s.active_orders from hkeys]; exact hx)
      refine ⟨?_, hb, hkm'⟩
      rw [ha]
      simp [List.filter_append, updatedSnap, hne]
    | none =>
      simp only [processUpdatedOrders, hl]
      exact ih s x hkm hx

theorem processCanceledOrders_untouched (t : Int) (ids : List String) :
    ∀ (s : SimState) (x : String), KeysMatch s.active_orders →
      x ∉ keysOf s.active_orders →
      (processCanceledOrders t ids s).order_history.filter
          (fun o => o.order_id == x) =
        s.order_history.filter (fun o => o.order_id == x)
      ∧ x ∉ keysOf (processCanceledOrders t ids s).active_orders
      ∧ KeysMatch (processCanceledOrders t ids s).active_orders := by
  induction ids with
  | nil => intro s x hkm hx; exact ⟨rfl, hx, hkm⟩
  | cons cid rest ih =>
    intro s x hkm hx
    cases hl : dictLookup cid s.active_orders with
    | some o =>
      have hid : o.order_id = cid := dictLookup_some_id hkm hl
      have hcon : cid ∈ keysOf s.active_orders :=
        (containsKey_iff _ _).mp (dictLookup_some_contains hl)
      have hne : o.order_id ≠ x := by
        rw [hid]
        intro hux
        exact hx (hux ▸ hcon)
      simp only [processCanceledOrders, hl]
      obtain ⟨ha, hb, hkm'⟩ := ih
        { s with order_history := s.order_history ++ [canceledSnap t o],
                 active_orders := dictPop cid s.active_orders } x
        (keysMatch_dictPop cid hkm)
        (fun hmem =>
          hx ((mem_keysOf_dictPop x cid s.active_orders).mp hmem).1)
      refine ⟨?_, hb, hkm'⟩
      rw [ha]
      simp [List.filter_append, canceledSnap, hne]
    | none =>
      simp only [processCanceledOrders, hl]
      exact ih s x hkm hx

theorem mem_keysOf_processCanceledOrders (t : Int) (ids : List String) :
    ∀ (s : SimState) (x : String),
      x ∈ keysOf (processCanceledOrders t ids s).active_orders →
        x ∈ keysOf s.active_orders := by
  induction ids with
  | nil => intro s x hx; exact hx
  | cons cid rest ih =>
    intro s x
    cases hl : dictLookup cid s.active_orders with
    | some o =>
      simp only [processCanceledOrders, hl]
      intro hx
      have := ih _ x hx
      exact ((mem_keysOf_dictPop x cid s.active_orders).mp this).1
    | none => simp only [processCanceledOrders, hl]; exact ih s x

/-! ### The active/history consistency invariant -/

/-- The conjunction of the structural dict invariants and the
active/history consistency invariant: every state the engine builds
satisfies it. -/
def GoodState (s : SimState) : Prop :=
  KeysMatch s.active_orders ∧ NodupKeys s.active_orders ∧
    ActiveIffNonTerminal s

theorem activeInv_snapshot_pop (s : SimState) (snap : Order) (k : String)
    (hid : snap.order_id = k) (hterm : terminalStatus snap.status = true)
    (hinv : ActiveIffNonTerminal s) :
    ActiveIffNonTerminal
      { s with order_history := s.order_history ++ [snap],
               active_orders := dictPop k s.active_orders } := by
  intro oid
  by_cases hok : oid = k
  · subst hok
    constructor
    · intro hmem
      exact absurd rfl ((mem_keysOf_dictPop oid oid s.active_orders).mp hmem).2
    · rintro ⟨o, ho, hnt⟩
      rw [latestSnapshot_append_eq oid s.order_history snap hid] at ho
      have hso : snap = o := Option.some.inj ho
      rw [← hso, hterm] at hnt
      cases hnt
  · have hne : snap.order_id ≠ oid := by
      rw [hid]
      exact fun hh => hok hh.symm
    constructor
    · intro hmem
      have h1 := ((mem_keysOf_dictPop oid k s.active_orders).mp hmem).1
      obtain ⟨o, ho, hnt⟩ := (hinv oid).mp h1
      refine ⟨o, ?_, hnt⟩
      rw [latestSnapshot_append_ne oid s.order_history snap hne]
      exact ho
    · rintro ⟨o, ho, hnt⟩
      rw [latestSnapshot_append_ne oid s.order_history snap hne] at ho
      exact (mem_keysOf_dictPop oid k s.active_orders).mpr
        ⟨(hinv oid).mpr ⟨o, ho, hnt⟩, hok⟩

theorem activeInv_snapshot_insert (s : SimState) (snap v : Order)
    (k : String) (hid : snap.order_id = k)
    (hterm : terminalStatus snap.status = false)
    (hinv : ActiveIffNonTerminal s) :
    ActiveIffNonTerminal
      { s with order_history := s.order_history ++ [snap],
               active_orders := dictInsert k v s.active_orders } := by
  intro oid
  by_cases hok : oid = k
  · subst hok
    constructor
    · intro _
      exact ⟨snap, latestSnapshot_append_eq oid s.order_history snap hid,
        hterm⟩
    · intro _
      exact (mem_keysOf_dictInsert oid oid v s.active_orders).mpr
        (Or.inr rfl)
  · have hne : snap.order_id ≠ oid := by
      rw [hid]
      exact fun hh => hok hh.symm
    constructor
    · intro hmem
      rcases (mem_keysOf_dictInsert oid k v s.active_orders).mp hmem with
        hm | he
      · obtain ⟨o, ho, hnt⟩ := (hinv oid).mp hm
        refine ⟨o, ?_, hnt⟩
        rw [latestSnapshot_append_ne oid s.order_history snap hne]
        exact ho
      · exact absurd he hok
    · rintro ⟨o, ho, hnt⟩
      rw [latestSnapshot_append_ne oid s.order_history snap hne] at ho
      exact (mem_keysOf_dictInsert oid k v s.active_orders).mpr
        (Or.inl ((hinv oid).mpr ⟨o, ho, hnt⟩))

theorem goodState_snapshot_pop (s : SimState) (snap : Order) (k : String)
    (hid : snap.order_id = k) (hterm : terminalStatus snap.status = true)
    (hg : GoodState s) :
    GoodState { s with order_history := s.order_history ++ [snap],
                       active_orders := dictPop k s.active_orders } :=
  ⟨keysMatch_dictPop k hg.1, nodupKeys_dictPop k hg.2.1,
    activeInv_snapshot_pop s snap k hid hterm hg.2.2⟩

theorem goodState_snapshot_insert (s : SimState) (snap v : Order)
    (k : String) (hid : snap.order_id = k) (hv : v.order_id = k)
    (hterm : terminalStatus snap.status = false) (hg : GoodState s) :
    GoodState { s with order_history := s.order_history ++ [snap],
                       active_orders := dictInsert k v s.active_orders } :=
  ⟨keysMatch_dictInsert hg.1 hv, nodupKeys_dictInsert k v hg.2.1,
    activeInv_snapshot_insert s snap v k hid hterm hg.2.2⟩

theorem goodState_expireLoop (t : Int) (items : List (String × Order)) :
    ∀ s : SimState, (∀ p ∈ items, p.2.order_id = p.1) → GoodState s →
      GoodState (expireLoop t items s).2 := by
  induction items with
  | nil => intro s _ hg; exact hg
  | cons p rest ih =>
    intro s hitems hg
    obtain ⟨k, o⟩ := p
    by_cases h : o.contract_time < t
    · rw [expireLoop_cons_pos t k o rest s h]
      refine ih _ (fun q hq => hitems q (List.mem_cons_of_mem _ hq)) ?_
      have hko : o.order_id = k := hitems (k, o) (List.mem_cons_self _ _)
      exact goodState_snapshot_pop s (expiredSnap t o) k hko rfl hg
    · rw [expireLoop_cons_neg t k o rest s h]
      exact ih s (fun q hq => hitems q (List.mem_cons_of_mem _ hq)) hg

theorem goodState_processClearingResults (t : Int) (c : List Order) :
    ∀ s : SimState, GoodState s →
      GoodState (processClearingResults t c s) := by
  induction c with
  | nil => intro s hg; exact hg
  | cons o rest ih =>
    intro s hg
    exact ih _ (goodState_snapshot_pop s (filledSnap t o) o.order_id rfl
      rfl hg)

theorem goodState_processNewOrders (t : Int) (ns : List Order) :
    ∀ s : SimState, (∀ o ∈ ns, o.status = "active") → GoodState s →
      GoodState (processNewOrders t ns s) := by
  induction ns with
  | nil => intro s _ hg; exact hg
  | cons o rest ih =>
    intro s hns hg
    refine ih _ (fun q hq => hns q (List.mem_cons_of_mem _ hq)) ?_
    have hst : o.status = "active" := hns o (List.mem_cons_self _ _)
    have hterm : terminalStatus o.status = false := by
      rw [hst]
      rfl
    exact goodState_snapshot_insert s
      { o with submission_time := stampSubmission t o.submission_time,
               event_type := "submitted" }
      { o with submission_time := stampSubmission t o.submission_time,
               event_type := "submitted" }
      o.order_id rfl rfl hterm hg

theorem goodState_processUpdatedOrders (t : Int) (us : List Order) :
    ∀ s : SimState, GoodState s →
      GoodState (processUpdatedOrders t us s) := by
  induction us with
  | nil => intro s hg; exact hg
  | cons u rest ih =>
    intro s hg
    cases hl : dictLookup u.order_id s.active_orders with
    | some original =>
      simp only [processUpdatedOrders, hl]
      have hid : original.order_id = u.order_id :=
        dictLookup_some_id hg.1 hl
      exact ih _ (goodState_snapshot_insert s (updatedSnap t original)
        { u with update_count := original.update_count + 1 }
        u.order_id hid rfl rfl hg)
    | none =>
      simp only [processUpdatedOrders, hl]
      exact ih s hg

theorem goodState_processCanceledOrders (t : Int) (ids : List String) :
    ∀ s : SimState, GoodState s →
      GoodState (processCanceledOrders t ids s) := by
  induction ids with
  | nil => intro s hg; exact hg
  | cons cid rest ih =>
    intro s hg
    cases hl : dictLookup cid s.active_orders with
    | some o =>
      simp only [processCanceledOrders, hl]
      have hid : o.order_id = cid := dictLookup_some_id hg.1 hl
      exact ih _ (goodState_snapshot_pop s (canceledSnap t o) cid hid
        rfl hg)
    | none =>
      simp only [processCanceledOrders, hl]
      exact ih s hg

theorem goodState_applyDecisions (t : Int) (ds : List Decisions) :
    ∀ s : SimState, NewOrdersActive ds → GoodState s →
      GoodState (applyDecisions t ds s) := by
  induction ds with
  | nil => intro s _ hg; exact hg
  | cons d rest ih =>
    intro s hnd hg
    exact ih _ (fun d' hd' => hnd d' (List.mem_cons_of_mem _ hd'))
      (goodState_processCanceledOrders t d.canceled_orders _
        (goodState_processUpdatedOrders t d.updated_orders _
          (goodState_processNewOrders t d.new_orders _
            (hnd d (List.mem_cons_self _ _)) hg)))

theorem goodState_clock (s : SimState) (c : Int) (hg : GoodState s) :
    GoodState { s with current_time := c } := hg

theorem goodState_step (c : Option ClearFn) (ds : List Decisions)
    (s : SimState) (hnd : NewOrdersActive ds) (hg : GoodState s) :
    GoodState (step c ds s).1 := by
  have h1 : GoodState (expireContracts s).2 :=
    goodState_expireLoop s.current_time s.active_orders s
      (fun p hp => hg.1 p hp) hg
  cases c with
  | none =>
    exact goodState_clock _ _
      (goodState_applyDecisions s.current_time ds _ hnd h1)
  | some f =>
    exact goodState_clock _ _
      (goodState_applyDecisions s.current_time ds _ hnd
        (goodState_processClearingResults s.current_time
          (f s.current_time (expireContracts s).2.active_orders) _ h1))

theorem goodState_runSteps (c : Option ClearFn)
    (dss : List (List Decisions)) :
    ∀ s : SimState, (∀ ds ∈ dss, NewOrdersActive ds) → GoodState s →
      GoodState (runSteps c dss s) := by
  induction dss with
  | nil => intro s _ hg; exact hg
  | cons ds rest ih =>
    intro s hnd hg
    exact ih _ (fun d hd => hnd d (List.mem_cons_of_mem _ hd))
      (goodState_step c ds s (hnd ds (List.mem_cons_self _ _)) hg)

theorem goodState_initState (a b : Int) : GoodState (initState a b) := by
  refine ⟨?_, ?_, ?_⟩
  · intro p hp
    cases hp
  · exact List.nodup_nil
  · intro oid
    constructor
    · intro h
      exact absurd h (List.not_mem_nil oid)
    · rintro ⟨o, ho, _⟩
      simp [latestSnapshot, initState] at ho

/-! ### No fills without a clearing mechanism -/

theorem noFilledRecords_append {h1 h2 : List Order}
    (ha : NoFilledRecords h1) (hb : NoFilledRecords h2) :
    NoFilledRecords (h1 ++ h2) := by
  intro o ho
  rcases List.mem_append.mp ho with h | h
  · exact ha o h
  · exact hb o h

theorem noFilled_expireLoop (t : Int) (items : List (String × Order))
    (s : SimState) (h : NoFilledRecords s.order_history) :
    NoFilledRecords (expireLoop t items s).2.order_history := by
  rw [expireLoop_history]
  refine noFilledRecords_append h ?_
  intro o ho
  obtain ⟨p, hp, rfl⟩ := List.mem_map.mp ho
  refine ⟨?_, ?_⟩
  · show ("expired" : String) ≠ "filled"
    decide
  · show ("expired" : String) ≠ "filled"
    decide

theorem noFilled_processNewOrders (t : Int) (ns : List Order) (s : SimState)
    (hns : ∀ o ∈ ns, o.status = "active")
    (h : NoFilledRecords s.order_history) :
    NoFilledRecords (processNewOrders t ns s).order_history := by
  rw [processNewOrders_history]
  refine noFilledRecords_append h ?_
  intro o ho
  obtain ⟨o0, ho0, rfl⟩ := List.mem_map.mp ho
  constructor
  · show o0.status ≠ "filled"
    rw [hns o0 ho0]
    decide
  · show ("submitted" : String) ≠ "filled"
    decide

theorem noFilled_processUpdatedOrders (t : Int) (us : List Order) :
    ∀ s : SimState, NoFilledRecords s.order_history →
      NoFilledRecords (processUpdatedOrders t us s).order_history := by
  induction us with
  | nil => intro s h; exact h
  | cons u rest ih =>
    intro s h
    cases hl : dictLookup u.order_id s.active_orders with
    | some original =>
      simp only [processUpdatedOrders, hl]
      refine ih _ (noFilledRecords_append h ?_)
      intro o ho
      rw [List.mem_singleton] at ho
      subst ho
      refine ⟨?_, ?_⟩
      · show ("updated" : String) ≠ "filled"
        decide
      · show ("updated" : String) ≠ "filled"
        decide
    | none =>
      simp only [processUpdatedOrders, hl]
      exact ih s h

theorem noFilled_processCanceledOrders (t : Int) (ids : List String) :
    ∀ s : SimState, NoFilledRecords s.order_history →
      NoFilledRecords (processCanceledOrders t ids s).order_history := by
  induction ids with
  | nil => intro s h; exact h
  | cons cid rest ih =>
    intro s h
    cases hl : dictLookup cid s.active_orders with
    | some o =>
      simp only [processCanceledOrders, hl]
      refine ih _ (noFilledRecords_append h ?_)
      intro o' ho'
      rw [List.mem_singleton] at ho'
      subst ho'
      refine ⟨?_, ?_⟩
      · show ("canceled" : String) ≠ "filled"
        decide
      · show ("canceled" : String) ≠ "filled"
        decide
    | none =>
      simp only [processCanceledOrders, hl]
      exact ih s h

theorem noFilled_applyDecisions (t : Int) (ds : List Decisions) :
    ∀ s : SimState, NewOrdersActive ds →
      NoFilledRecords s.order_history →
      NoFilledRecords (applyDecisions t ds s).order_history := by
  induction ds with
  | nil => intro s _ h; exact h
  | cons d rest ih =>
    intro s hnd h
    exact ih _ (fun d' hd' => hnd d' (List.mem_cons_of_mem _ hd'))
      (noFilled_processCanceledOrders t d.canceled_orders _
        (noFilled_processUpdatedOrders t d.updated_orders _
          (noFilled_processNewOrders t d.new_orders _
            (hnd d (List.mem_cons_self _ _)) h)))

theorem noFilled_step_none (ds : List Decisions) (s : SimState)
    (hnd : NewOrdersActive ds) (h : NoFilledRecords s.order_history) :
    NoFilledRecords (step none ds s).1.order_history :=
  noFilled_applyDecisions s.current_time ds _ hnd
    (noFilled_expireLoop s.current_time s.active_orders s h)

theorem noFilled_runSteps_none (dss : List (List Decisions)) :
    ∀ s : SimState, (∀ ds ∈ dss, NewOrdersActive ds) →
      NoFilledRecords s.order_history →
      NoFilledRecords (runSteps none dss s).order_history := by
  induction dss with
  | nil => intro s _ h; exact h
  | cons ds rest ih =>
    intro s hnd h
    exact ih _ (fun d hd => hnd d (List.mem_cons_of_mem _ hd))
      (noFilled_step_none ds s (hnd ds (List.mem_cons_self _ _)) h)

/-! ### History extension (append-only) -/

theorem processUpdatedOrders_history_extends (t : Int) (us : List Order) :
    ∀ s : SimState, ∃ d, (processUpdatedOrders t us s).order_history =
      s.order_history ++ d := by
  induction us with
  | nil => intro s; exact ⟨[], by simp [processUpdatedOrders]⟩
  | cons u rest ih =>
    intro s
    cases hl : dictLookup u.order_id s.active_orders with
    | some original =>
      simp only [processUpdatedOrders, hl]
      obtain ⟨d, hd⟩ := ih
        { s with order_history := s.order_history ++ [updatedSnap t original],
                 active_orders := dictInsert u.order_id
                   { u with update_count := original.update_count + 1 }
                   s.active_orders }
      exact ⟨updatedSnap t original :: d, by
        rw [hd]
        simp [List.append_assoc]⟩
    | none =>
      simp only [processUpdatedOrders, hl]
      exact ih s

theorem processCanceledOrders_history_extends (t : Int) (ids : List String) :
    ∀ s : SimState, ∃ d, (processCanceledOrders t ids s).order_history =
      s.order_history ++ d := by
  induction ids with
  | nil => intro s; exact ⟨[], by simp [processCanceledOrders]⟩
  | cons cid rest ih =>
    intro s
    cases hl : dictLookup cid s.active_orders with
    | some o =>
      simp only [processCanceledOrders, hl]
      obtain ⟨d, hd⟩ := ih
        { s with order_history := s.order_history ++ [canceledSnap t o],
                 active_orders := dictPop cid s.active_orders }
      exact ⟨canceledSnap t o :: d, by
        rw [hd]
        simp [List.append_assoc]⟩
    | none =>
      simp only [processCanceledOrders, hl]
      exact ih s

theorem applyDecisions_history_extends (t : Int) (ds : List Decisions) :
    ∀ s : SimState, ∃ d, (applyDecisions t ds s).order_history =
      s.order_history ++ d := by
  induction ds with
  | nil => intro s; exact ⟨[], by simp [applyDecisions]⟩
  | cons d rest ih =>
    intro s
    obtain ⟨d1, hd1⟩ := ih
      (processCanceledOrders t d.canceled_orders
        (processUpdatedOrders t d.updated_orders
          (processNewOrders t d.new_orders s)))
    obtain ⟨d2, hd2⟩ := processCanceledOrders_history_extends t
      d.canceled_orders
      (processUpdatedOrders t d.updated_orders
        (processNewOrders t d.new_orders s))
    obtain ⟨d3, hd3⟩ := processUpdatedOrders_history_extends t
      d.updated_orders (processNewOrders t d.new_orders s)
    refine ⟨(d.new_orders.map (fun o =>
      { o with submission_time := stampSubmission t o.submission_time,
               event_type := "submitted" })) ++ d3 ++ d2 ++ d1, ?_⟩
    show (applyDecisions t rest _).order_history = _
    rw [hd1, hd2, hd3, processNewOrders_history]
    simp [List.append_assoc]

theorem step_history_extends (c : Option ClearFn) (ds : List Decisions)
    (s : SimState) : ∃ d, (step c ds s).1.order_history =
      s.order_history ++ d := by
  cases c with
  | none =>
    obtain ⟨d1, hd1⟩ := applyDecisions_history_extends s.current_time ds
      (expireContracts s).2
    refine ⟨(s.active_orders.filter
      (fun p => decide (p.2.contract_time < s.current_time))).map
        (fun p => expiredSnap s.current_time p.2) ++ d1, ?_⟩
    show (applyDecisions s.current_time ds
      (expireContracts s).2).order_history = _
    rw [hd1]
    show (expireLoop s.current_time s.active_orders s).2.order_history
      ++ d1 = _
    rw [expireLoop_history]
    simp [List.append_assoc]
  | some f =>
    obtain ⟨d1, hd1⟩ := applyDecisions_history_extends s.current_time ds
      (processClearingResults s.current_time
        (f s.current_time (expireContracts s).2.active_orders)
        (expireContracts s).2)
    refine ⟨(s.active_orders.filter
      (fun p => decide (p.2.contract_time < s.current_time))).map
        (fun p => expiredSnap s.current_time p.2) ++
      (f s.current_time (expireContracts s).2.active_orders).map
        (filledSnap s.current_time) ++ d1, ?_⟩
    show (applyDecisions s.current_time ds
      (processClearingResults s.current_time
        (f s.current_time (expireContracts s).2.active_orders)
        (expireContracts s).2)).order_history = _
    rw [hd1, processClearingResults_history]
    show (expireLoop s.current_time s.active_orders s).2.order_history
      ++ _ ++ d1 = _
    rw [expireLoop_history]
    simp [List.append_assoc]

theorem runSteps_history_extends (c : Option ClearFn)
    (dss : List (List Decisions)) :
    ∀ s : SimState, ∃ d, (runSteps c dss s).order_history =
      s.order_history ++ d := by
  induction dss with
  | nil => intro s; exact ⟨[], by simp [runSteps]⟩
  | cons ds rest ih =>
    intro s
    obtain ⟨d1, hd1⟩ := ih (step c ds s).1
    obtain ⟨d2, hd2⟩ := step_history_extends c ds s
    refine ⟨d2 ++ d1, ?_⟩
    show (runSteps c rest (step c ds s).1).order_history = _
    rw [hd1, hd2]
    simp [List.append_assoc]

/-! ### Keys never reappear except through new-order admission -/

theorem mem_keysOf_expireLoop_subset (t : Int)
    (items : List (String × Order)) (s : SimState) (x : String)
    (hx : x ∈ keysOf (expireLoop t items s).2.active_orders) :
    x ∈ keysOf s.active_orders := by
  obtain ⟨q, hq, rfl⟩ := List.mem_map.mp hx
  exact List.mem_map.mpr ⟨q, ((expireLoop_mem_active t items s q).mp hq).1,
    rfl⟩

theorem mem_keysOf_processClearingResults_subset (t : Int) (c : List Order)
    (s : SimState) (x : String)
    (hx : x ∈ keysOf (processClearingResults t c s).active_orders) :
    x ∈ keysOf s.active_orders := by
  obtain ⟨q, hq, rfl⟩ := List.mem_map.mp hx
  exact List.mem_map.mpr
    ⟨q, ((processClearingResults_mem_active t c s q).mp hq).1, rfl⟩

theorem not_mem_keysOf_applyDecisions (t : Int) (ds : List Decisions) :
    ∀ (s : SimState) (x : String), x ∉ keysOf s.active_orders →
      (∀ d ∈ ds, ∀ o ∈ d.new_orders, o.order_id ≠ x) →
      x ∉ keysOf (applyDecisions t ds s).active_orders := by
  induction ds with
  | nil => intro s x hx _; exact hx
  | cons d rest ih =>
    intro s x hx hnew
    refine ih _ x ?_ (fun d' hd' => hnew d' (List.mem_cons_of_mem _ hd'))
    intro hmem
    have h1 := mem_keysOf_processCanceledOrders t d.canceled_orders _ x hmem
    rw [keysOf_processUpdatedOrders] at h1
    rcases (mem_keysOf_processNewOrders t d.new_orders s x).mp h1 with
      hm | hin
    · exact hx hm
    · obtain ⟨o, ho, hid⟩ := List.mem_map.mp hin
      exact hnew d (List.mem_cons_self _ _) o ho hid

theorem not_mem_keysOf_step (c : Option ClearFn) (ds : List Decisions)
    (s : SimState) (x : String) (hx : x ∉ keysOf s.active_orders)
    (hnew : ∀ d ∈ ds, ∀ o ∈ d.new_orders, o.order_id ≠ x) :
    x ∉ keysOf (step c ds s).1.active_orders := by
  have h2 : x ∉ keysOf (expireContracts s).2.active_orders :=
    fun hm => hx (mem_keysOf_expireLoop_subset s.current_time
      s.active_orders s x hm)
  cases c with
  | none =>
    exact not_mem_keysOf_applyDecisions s.current_time ds _ x h2 hnew
  | some f =>
    have h3 : x ∉ keysOf (processClearingResults s.current_time
        (f s.current_time (expireContracts s).2.active_orders)
        (expireContracts s).2).active_orders :=
      fun hm => h2 (mem_keysOf_processClearingResults_subset _ _ _ x hm)
    exact not_mem_keysOf_applyDecisions s.current_time ds _ x h3 hnew

/-! ### Remaining support lemmas -/

theorem filter_filledSnap_nil (t : Int) (oid : String) :
    ∀ c : List Order, oid ∉ c.map Order.order_id →
      (c.map (filledSnap t)).filter (fun x => x.order_id == oid) = [] := by
  intro c
  induction c with
  | nil => intro _; rfl
  | cons a rest ih =>
    intro h
    have hne : a.order_id ≠ oid := fun hh =>
      h (List.mem_map.mpr ⟨a, List.mem_cons_self _ _, hh⟩)
    simp only [List.map_cons, List.filter_cons]
    have hcond : ((filledSnap t a).order_id == oid) = false := by
      simp [filledSnap, hne]
    rw [hcond]
    simp only [Bool.false_eq_true, if_false]
    refine ih (fun hm => h ?_)
    obtain ⟨o, ho, rfl⟩ := List.mem_map.mp hm
    exact List.mem_map.mpr ⟨o, List.mem_cons_of_mem _ ho, rfl⟩

theorem count_filledSnap_one (t : Int) (oid : String) :
    ∀ c : List Order, (c.map Order.order_id).Nodup →
      oid ∈ c.map Order.order_id →
      ((c.map (filledSnap t)).filter
        (fun x => x.order_id == oid)).length = 1 := by
  intro c
  induction c with
  | nil => intro _ hm; cases hm
  | cons a rest ih =>
    intro hnd hm
    rw [List.map_cons] at hnd hm
    have hnd' := List.nodup_cons.mp hnd
    simp only [List.map_cons, List.filter_cons]
    rcases List.mem_cons.mp hm with heq | hmem
    · have hcond : ((filledSnap t a).order_id == oid) = true := by
        simp [filledSnap, heq.symm]
      rw [hcond]
      simp only [if_true, List.length_cons]
      rw [filter_filledSnap_nil t oid rest (by rw [heq]; exact hnd'.1)]
      rfl
    · have hne : a.order_id ≠ oid := fun hh => hnd'.1 (by
        rw [hh]
        exact hmem)
      have hcond : ((filledSnap t a).order_id == oid) = false := by
        simp [filledSnap, hne]
      rw [hcond]
      simp only [Bool.false_eq_true, if_false]
      exact ih hnd'.2 hmem

theorem nodupKeys_eq_of_mem :
    ∀ {m : List (String × Order)}, NodupKeys m →
      ∀ {p q : String × Order}, p ∈ m → q ∈ m → p.1 = q.1 → p = q := by
  intro m
  induction m with
  | nil => intro _ p q hp; cases hp
  | cons a rest ih =>
    intro h p q hp hq hk
    have h' : a.1 ∉ keysOf rest ∧ NodupKeys rest := by
      have := h
      rw [NodupKeys, keysOf, List.map_cons, List.nodup_cons] at this
      exact this
    rcases List.mem_cons.mp hp with rfl | hp' <;>
      rcases List.mem_cons.mp hq with rfl | hq'
    · rfl
    · exact absurd (List.mem_map.mpr ⟨q, hq', hk.symm⟩) h'.1
    · exact absurd (List.mem_map.mpr ⟨p, hp', hk⟩) h'.1
    · exact ih h'.2 hp' hq' hk

theorem dictPop_not_mem {k : String} {m : List (String × Order)}
    (h : k ∉ keysOf m) : dictPop k m = m := by
  rw [dictPop, List.filter_eq_self]
  intro p hp
  have hne : p.1 ≠ k := fun hh => h (List.mem_map.mpr ⟨p, hp, hh⟩)
  rw [Bool.not_eq_true', beq_eq_false_iff_ne]
  exact hne

theorem dictLookup_map_replace (k : String) (v : Order) :
    ∀ m : List (String × Order), containsKey k m = true →
      dictLookup k (m.map (fun p => if p.1 == k then (k, v) else p)) =
        some v := by
  intro m
  induction m with
  | nil => intro h; cases h
  | cons p rest ih =>
    intro h
    by_cases hpk : (p.1 == k) = true
    · simp only [List.map_cons, hpk, if_true]
      simp [dictLookup, List.find?]
    · simp only [List.map_cons, hpk, Bool.false_eq_true, if_false]
      have hr : containsKey k rest = true := by
        simp only [containsKey, List.any_cons, hpk] at h
        simpa [containsKey] using h
      have hstep : dictLookup k
          (p :: rest.map (fun p => if p.1 == k then (k, v) else p)) =
          dictLookup k (rest.map (fun p => if p.1 == k then (k, v) else p)) := by
        simp [dictLookup, List.find?, hpk]
      rw [hstep]
      exact ih hr

theorem dictLookup_append_self (k : String) (v : Order) :
    ∀ m : List (String × Order), containsKey k m = false →
      dictLookup k (m ++ [(k, v)]) = some v := by
  intro m
  induction m with
  | nil =>
    intro _
    simp [dictLookup, List.find?]
  | cons p rest ih =>
    intro h
    simp only [containsKey, List.any_cons, Bool.or_eq_false_iff] at h
    have hstep : dictLookup k (p :: (rest ++ [(k, v)])) =
        dictLookup k (rest ++ [(k, v)]) := by
      simp [dictLookup, List.find?, h.1]
    rw [List.cons_append, hstep]
    exact ih (by simpa [containsKey] using h.2)

theorem dictLookup_dictInsert (k : String) (v : Order)
    (m : List (String × Order)) :
    dictLookup k (dictInsert k v m) = some v := by
  by_cases hc : containsKey k m
  · rw [dictInsert, if_pos hc]
    exact dictLookup_map_replace k v m hc
  · rw [dictInsert, if_neg hc]
    exact dictLookup_append_self k v m (by simpa using hc)

/-! ### Claim theorems -/

/-- Claim C1: for every run — any clearing mechanism, any number of steps,
any per-step strategy decisions whose new orders are constructor outputs
and therefore carry status `"active"` — at every point between steps an
`order_id` is a key of `active_orders` if and only if its latest history
snapshot exists and has a non-terminal status (not filled, canceled or
expired): never both, never neither.  In particular every admitted order
has a history snapshot, so the claim's XOR holds for every admitted id. -/
theorem c1_active_iff_latest_nonterminal (c : Option ClearFn)
    (dss : List (List Decisions)) (a b : Int)
    (hnew : ∀ ds ∈ dss, NewOrdersActive ds) :
    ActiveIffNonTerminal (runSteps c dss (initState a b)) :=
  (goodState_runSteps c dss (initState a b) hnew
    (goodState_initState a b)).2.2

/-- Witness for C1: a concrete two-step run with the fill-all clearing
mechanism, one submitted order, an accepted update and an unknown cancel. -/
theorem c1_witness :
    ActiveIffNonTerminal (runSteps (some fillAll)
      [[{ new_orders := [sampleOrder "a" 100], updated_orders := [],
          canceled_orders := [] }],
       [{ new_orders := [], updated_orders := [sampleOrder "a" 100],
          canceled_orders := ["zzz"] }]]
      (initState 0 1)) :=
  c1_active_iff_latest_nonterminal (some fillAll) _ 0 1 (by decide)

/-- Claim C2: the expiry phase expires exactly the active orders with
`contract_time` strictly below `current_time`.  Every order in the
returned expired list has `contract_time < current_time`,
`status = "expired"` and `execution_time = current_time` (so an order with
`contract_time = current_time` is never in it); the history grows by
exactly the `event_type = "expired"` snapshot of each expired order; every
strictly-past active order lands in the expired list and its key is
removed from `active_orders`; and — the keys being distinct, as in a
Python dict — every other active entry is retained untouched. -/
theorem c2_expire_strictly_past (s : SimState) :
    (∀ e ∈ (expireContracts s).1,
        e.contract_time < s.current_time ∧ e.status = "expired" ∧
          e.execution_time = some s.current_time)
    ∧ (expireContracts s).2.order_history =
        s.order_history ++ (expireContracts s).1.map
          (fun e => { e with event_type := "expired" })
    ∧ (∀ p ∈ s.active_orders, p.2.contract_time < s.current_time →
        expiredLive s.current_time p.2 ∈ (expireContracts s).1 ∧
          p.1 ∉ keysOf (expireContracts s).2.active_orders)
    ∧ (NodupKeys s.active_orders →
        ∀ p ∈ s.active_orders, ¬ p.2.contract_time < s.current_time →
          p ∈ (expireContracts s).2.active_orders) := by
  refine ⟨?_, ?_, ?_, ?_⟩
  · intro e he
    rw [expireContracts, expireLoop_expired] at he
    obtain ⟨p, hp, rfl⟩ := List.mem_map.mp he
    exact ⟨of_decide_eq_true (List.mem_filter.mp hp).2, rfl, rfl⟩
  · rw [expireContracts, expireLoop_history, expireLoop_expired,
      List.map_map]
    rfl
  · intro p hp hlt
    constructor
    · rw [expireContracts, expireLoop_expired]
      exact List.mem_map.mpr
        ⟨p, List.mem_filter.mpr ⟨hp, decide_eq_true hlt⟩, rfl⟩
    · intro hmem
      obtain ⟨q, hq, hqk⟩ := List.mem_map.mp hmem
      have h2 := (expireLoop_mem_active s.current_time s.active_orders
        s q).mp hq
      apply h2.2
      rw [hqk]
      exact List.mem_map.mpr
        ⟨p, List.mem_filter.mpr ⟨hp, decide_eq_true hlt⟩, rfl⟩
  · intro hnd p hp hnlt
    have hgoal := (expireLoop_mem_active s.current_time s.active_orders
      s p).mpr
    refine hgoal ⟨hp, ?_⟩
    intro hmem
    obtain ⟨q, hq, hqk⟩ := List.mem_map.mp hmem
    have hqa : q ∈ s.active_orders := List.mem_of_mem_filter hq
    have hpq : p = q := nodupKeys_eq_of_mem hnd hp hqa hqk.symm
    have hc := (List.mem_filter.mp hq).2
    rw [← hpq] at hc
    exact hnlt (of_decide_eq_true hc)

/-- Witness for C2: at a concrete state with one strictly-past order "p"
and one future order "q", the expiry phase expires and removes "p" and
retains "q". -/
theorem c2_witness :
    (expiredLive 5 (sampleOrder "p" 3) ∈ (expireContracts pastFutureState).1
      ∧ "p" ∉ keysOf (expireContracts pastFutureState).2.active_orders)
    ∧ ("q", sampleOrder "q" 7) ∈
        (expireContracts pastFutureState).2.active_orders := by
  constructor
  · exact (c2_expire_strictly_past pastFutureState).2.2.1
      ("p", sampleOrder "p" 3) (by decide) (by decide)
  · exact (c2_expire_strictly_past pastFutureState).2.2.2 (by decide)
      ("q", sampleOrder "q" 7) (by decide) (by decide)

/-- Claim C3: the clearing phase appends, per order returned by the
mechanism, exactly the filled snapshot (`status = "filled"`,
`event_type = "filled"`, `execution_time = current_time`) and removes the
returned order's id from `active_orders`; under the clearing contract's
no-duplicate requirement each returned order gains exactly one new history
record; and a run constructed without a clearing mechanism never produces
any history record with status or event type `"filled"`. -/
theorem c3_clearing_fills_and_no_clearing_no_fills :
    (∀ (t : Int) (c : List Order) (s : SimState),
        (processClearingResults t c s).order_history =
          s.order_history ++ c.map (filledSnap t))
    ∧ (∀ (t : Int) (o : Order), (filledSnap t o).status = "filled" ∧
        (filledSnap t o).event_type = "filled" ∧
        (filledSnap t o).execution_time = some t)
    ∧ (∀ (t : Int) (c : List Order) (s : SimState), ∀ o ∈ c,
        o.order_id ∉ keysOf (processClearingResults t c s).active_orders)
    ∧ (∀ (t : Int) (c : List Order) (s : SimState),
        (c.map Order.order_id).Nodup → ∀ o ∈ c,
          ((processClearingResults t c s).order_history.filter
            (fun x => x.order_id == o.order_id)).length =
          (s.order_history.filter
            (fun x => x.order_id == o.order_id)).length + 1)
    ∧ (∀ (dss : List (List Decisions)) (a b : Int),
        (∀ ds ∈ dss, NewOrdersActive ds) →
        NoFilledRecords
          (runSteps none dss (initState a b)).order_history) := by
  refine ⟨?_, ?_, ?_, ?_, ?_⟩
  · intro t c s
    exact processClearingResults_history t c s
  · intro t o
    exact ⟨rfl, rfl, rfl⟩
  · intro t c s o ho hmem
    obtain ⟨q, hq, hqk⟩ := List.mem_map.mp hmem
    have h2 := (processClearingResults_mem_active t c s q).mp hq
    apply h2.2
    rw [hqk]
    exact List.mem_map.mpr ⟨o, ho, rfl⟩
  · intro t c s hnd o ho
    rw [processClearingResults_history t c s, List.filter_append,
      List.length_append,
      count_filledSnap_one t o.order_id c hnd
        (List.mem_map.mpr ⟨o, ho, rfl⟩)]
  · intro dss a b hnd
    refine noFilled_runSteps_none dss (initState a b) hnd ?_
    intro o ho
    cases ho

/-- Witness for C3: a concrete clearing of a single order adds exactly one
record for its id, and a concrete clearing-free run has no filled
record. -/
theorem c3_witness :
    ((processClearingResults 7 [sampleOrder "a" 9]
        (initState 0 1)).order_history.filter
          (fun x => x.order_id == (sampleOrder "a" 9).order_id)).length =
      ((initState 0 1).order_history.filter
          (fun x => x.order_id == (sampleOrder "a" 9).order_id)).length + 1
    ∧ NoFilledRecords (runSteps none
        [[{ new_orders := [sampleOrder "b" 0], updated_orders := [],
            canceled_orders := [] }], []]
        (initState 0 1)).order_history := by
  constructor
  · exact c3_clearing_fills_and_no_clearing_no_fills.2.2.2.1 7
      [sampleOrder "a" 9] (initState 0 1) (by decide)
      (sampleOrder "a" 9) (by decide)
  · exact c3_clearing_fills_and_no_clearing_no_fills.2.2.2.2 _ 0 1
      (by decide)

/-- Claim C4: `order_history` is append-only — every step, and hence every
run, only appends to it — and every snapshot-producing transition appends
exactly one record: the expiry phase one per expired order, the clearing
phase one per returned order, admission one per new order, the update
phase one per update whose id is currently active, and the cancel phase
one per accepted cancel. -/
theorem c4_history_append_only :
    (∀ (c : Option ClearFn) (ds : List Decisions) (s : SimState),
        ∃ d, (step c ds s).1.order_history = s.order_history ++ d)
    ∧ (∀ (c : Option ClearFn) (dss : List (List Decisions)) (s : SimState),
        ∃ d, (runSteps c dss s).order_history = s.order_history ++ d)
    ∧ (∀ s : SimState, (expireContracts s).2.order_history.length =
        s.order_history.length + (expireContracts s).1.length)
    ∧ (∀ (t : Int) (c : List Order) (s : SimState),
        (processClearingResults t c s).order_history.length =
          s.order_history.length + c.length)
    ∧ (∀ (t : Int) (ns : List Order) (s : SimState),
        (processNewOrders t ns s).order_history.length =
          s.order_history.length + ns.length)
    ∧ (∀ (t : Int) (us : List Order) (s : SimState),
        (processUpdatedOrders t us s).order_history.length =
          s.order_history.length + (us.filter
            (fun u => containsKey u.order_id s.active_orders)).length)
    ∧ (∀ (t : Int) (ids : List String) (s : SimState),
        (processCanceledOrders t ids s).order_history.length =
          s.order_history.length +
            countAcceptedCancels ids s.active_orders) := by
  refine ⟨step_history_extends, ?_, ?_, ?_, ?_, ?_, ?_⟩
  · intro c dss s
    exact runSteps_history_extends c dss s
  · intro s
    rw [expireContracts, expireLoop_history, expireLoop_expired,
      List.length_append, List.length_map, List.length_map]
  · intro t c s
    rw [processClearingResults_history, List.length_append,
      List.length_map]
  · intro t ns s
    rw [processNewOrders_history, List.length_append, List.length_map]
  · intro t us s
    exact processUpdatedOrders_history_length t us s
  · intro t ids s
    exact processCanceledOrders_history_length t ids s

/-- Claim C5: an update or cancel naming an order_id that is not a key of
`active_orders` is a silent no-op: after processing any update list and
any cancel list, the id is still absent from `active_orders` and the
history records carrying that id are exactly the ones that were there
before; no error is possible since the processing functions are total. -/
theorem c5_unknown_id_silent_noop (t : Int) (us : List Order)
    (ids : List String) (s : SimState) (x : String)
    (hkm : KeysMatch s.active_orders) (hx : x ∉ keysOf s.active_orders) :
    dictLookup x (processCanceledOrders t ids
        (processUpdatedOrders t us s)).active_orders = none
    ∧ (processCanceledOrders t ids
        (processUpdatedOrders t us s)).order_history.filter
          (fun o => o.order_id == x) =
      s.order_history.filter (fun o => o.order_id == x) := by
  obtain ⟨ha, hb, hkm1⟩ := processUpdatedOrders_untouched t us s x hkm hx
  obtain ⟨hc, hd, hkm2⟩ := processCanceledOrders_untouched t ids _ x hkm1 hb
  exact ⟨dictLookup_eq_none_of_not_mem hd, hc.trans ha⟩

/-- Witness for C5: updating and canceling the unknown id "zzz" against a
concrete one-order state changes nothing about that id. -/
theorem c5_witness :
    dictLookup "zzz" (processCanceledOrders 3 ["zzz"]
        (processUpdatedOrders 3 [sampleOrder "zzz" 9]
          witnessState)).active_orders = none
    ∧ (processCanceledOrders 3 ["zzz"]
        (processUpdatedOrders 3 [sampleOrder "zzz" 9]
          witnessState)).order_history.filter
            (fun o => o.order_id == "zzz") =
      witnessState.order_history.filter (fun o => o.order_id == "zzz") :=
  c5_unknown_id_silent_noop 3 [sampleOrder "zzz" 9] ["zzz"] witnessState
    "zzz" (by decide) (by decide)

/-- Claim C6: an accepted update — the incoming order's id is currently
active with stored order `original` — appends exactly one history record,
the snapshot of `original` (same price and quantity as the pre-update
order) with `event_type = "updated"`, and replaces the active entry by the
incoming order with `update_count = original.update_count + 1`; so the
first update of a fresh order (whose `update_count` is 0) stores 1. -/
theorem c6_accepted_update (t : Int) (u original : Order) (s : SimState)
    (h : dictLookup u.order_id s.active_orders = some original) :
    processUpdatedOrders t [u] s =
      { s with order_history := s.order_history ++ [updatedSnap t original],
               active_orders := dictInsert u.order_id
                 { u with update_count := original.update_count + 1 }
                 s.active_orders }
    ∧ (updatedSnap t original).price = original.price
    ∧ (updatedSnap t original).quantity = original.quantity
    ∧ (updatedSnap t original).event_type = "updated"
    ∧ dictLookup u.order_id (processUpdatedOrders t [u] s).active_orders =
        some { u with update_count := original.update_count + 1 } := by
  have he : processUpdatedOrders t [u] s =
      { s with order_history := s.order_history ++ [updatedSnap t original],
               active_orders := dictInsert u.order_id
                 { u with update_count := original.update_count + 1 }
                 s.active_orders } := by
    simp only [processUpdatedOrders, h]
  refine ⟨he, rfl, rfl, rfl, ?_⟩
  rw [he]
  exact dictLookup_dictInsert u.order_id _ s.active_orders

/-- Witness for C6: a concrete accepted price update of a fresh order
stores the new price with `update_count = 1`. -/
theorem c6_witness :
    dictLookup "a" (processUpdatedOrders 3
      [{ sampleOrder "a" 9 with price := 42 }]
      witnessState).active_orders =
      some { sampleOrder "a" 9 with price := 42, update_count := 1 } :=
  (c6_accepted_update 3 { sampleOrder "a" 9 with price := 42 }
    (sampleOrder "a" 9) witnessState (by decide)).2.2.2.2

/-- Claim C7 (code bug): both the spec and the constructor's own comment
(`src/sim.py` line 40, `# active, filled, canceled, expired`) restrict
`status` to those four values, but `_process_updated_orders` (line 210)
writes `status = "updated"` — a fifth value outside the enumeration — into
the history snapshot of every accepted update; here a concrete accepted
update is shown to put a record with `status = "updated"` into
`order_history`. -/
theorem c7_update_snapshot_status_outside_enum :
    ((processUpdatedOrders 3 [{ sampleOrder "a" 9 with price := 42 }]
        witnessState).order_history.map Order.status =
      ["active", "updated"])
    ∧ "updated" ∉
        (["active", "filled", "canceled", "expired"] : List String) := by
  constructor
  · decide
  · decide

/-- Counterexample to claim C8 as stated: in a concrete run with a
fill-all clearing mechanism, after two steps the latest history snapshot
of id "a" is terminal (`"filled"`), yet a later step — whose strategy
submits a brand-new order reusing id "a" — makes "a" a key of
`active_orders` again: the engine does not guard new-order admission
against id reuse. -/
theorem c8_counterexample :
    ((latestSnapshot "a" (runSteps (some fillAll) [resubStep1, resubStep2]
        (initState 0 1)).order_history).map Order.status = some "filled")
    ∧ terminalStatus "filled" = true
    ∧ "a" ∈ keysOf (runSteps (some fillAll)
        [resubStep1, resubStep2, resubStep3]
        (initState 0 1)).active_orders := by
  refine ⟨by decide, rfl, by decide⟩

/-- Claim C8 (amended): an order_id that is not a key of `active_orders`
— in particular one whose latest snapshot is terminal, since by the C1
invariant such an id is never a key — is never made a key again by expiry,
clearing, updates or cancels; it can only re-enter `active_orders` through
new-order admission, when some strategy returns a new order reusing that
order_id. -/
theorem c8_amended_no_reinsertion (c : Option ClearFn) (ds : List Decisions)
    (s : SimState) (x : String) (hx : x ∉ keysOf s.active_orders)
    (hnew : ∀ d ∈ ds, ∀ o ∈ d.new_orders, o.order_id ≠ x) :
    x ∉ keysOf (step c ds s).1.active_orders :=
  not_mem_keysOf_step c ds s x hx hnew

/-- Witness for C8 (amended): at a concrete step that clears everything,
updates "a", cancels "a" and submits a fresh order "b", the absent id "a"
stays out of the active set. -/
theorem c8_amended_witness :
    "a" ∉ keysOf (step (some fillAll)
      [{ new_orders := [sampleOrder "b" 5],
         updated_orders := [sampleOrder "a" 5],
         canceled_orders := ["a"] }]
      (initState 0 1)).1.active_orders :=
  c8_amended_no_reinsertion (some fillAll) _ (initState 0 1) "a"
    (by decide) (by decide)

/-- Claim C9: within one step, the clearing mechanism is invoked on the
post-expiry active set; hence for a policy that returns only orders drawn
from the mapping it is given (its returned ids are keys of that mapping)
and an engine state whose stored ids match their dict keys, no order it
returns carries the id of any order expired in the same step. -/
theorem c9_cleared_disjoint_from_expired (f : ClearFn)
    (ds : List Decisions) (s : SimState)
    (hkm : KeysMatch s.active_orders)
    (hf : ∀ o ∈ (step (some f) ds s).2.2,
        o.order_id ∈ keysOf (expireContracts s).2.active_orders) :
    ∀ o ∈ (step (some f) ds s).2.2, ∀ e ∈ (step (some f) ds s).2.1,
      o.order_id ≠ e.order_id := by
  intro o ho e he heq
  have he' : e ∈ (expireContracts s).1 := he
  rw [expireContracts, expireLoop_expired] at he'
  obtain ⟨p, hp, rfl⟩ := List.mem_map.mp he'
  have hid : p.2.order_id = p.1 := hkm p (List.mem_of_mem_filter hp)
  obtain ⟨q, hq, hqk⟩ := List.mem_map.mp (hf o ho)
  have h2 := (expireLoop_mem_active s.current_time s.active_orders
    s q).mp hq
  apply h2.2
  rw [hqk, heq]
  show (expiredLive s.current_time p.2).order_id ∈ _
  rw [show (expiredLive s.current_time p.2).order_id = p.2.order_id
    from rfl, hid]
  exact List.mem_map.mpr ⟨p, hp, rfl⟩

/-- Witness for C9: at a concrete state with one strictly-past order "p"
and one future order "q" and the fill-all mechanism, the step clears "q"
and expires "p", and their ids differ. -/
theorem c9_witness :
    (sampleOrder "q" 7).order_id ≠
      (expiredLive 5 (sampleOrder "p" 3)).order_id :=
  c9_cleared_disjoint_from_expired fillAll [] pastFutureState
    (by decide) (by decide) (sampleOrder "q" 7) (by decide)
    (expiredLive 5 (sampleOrder "p" 3)) (by decide)

/-- Claim C10: a cleared order whose id is not a key of `active_orders`
raises no error — `_process_clearing_results` is total — and still gets a
`filled` history snapshot appended, while `active_orders` is left exactly
unchanged (`dict.pop(id, None)` is a no-op). -/
theorem c10_rogue_cleared_order_is_recorded (t : Int) (o : Order)
    (s : SimState) (h : o.order_id ∉ keysOf s.active_orders) :
    processClearingResults t [o] s =
      { s with order_history := s.order_history ++ [filledSnap t o] } := by
  have he : processClearingResults t [o] s =
      { s with order_history := s.order_history ++ [filledSnap t o],
               active_orders := dictPop o.order_id s.active_orders } := rfl
  rw [he, dictPop_not_mem h]

/-- Witness for C10: clearing the unknown order "zzz" against a concrete
one-order state appends its filled snapshot and leaves the active set as
it was. -/
theorem c10_witness :
    processClearingResults 3 [sampleOrder "zzz" 9] witnessState =
      { witnessState with order_history :=
          witnessState.order_history ++ [filledSnap 3 (sampleOrder "zzz" 9)] } :=
  c10_rogue_cleared_order_is_recorded 3 (sampleOrder "zzz" 9) witnessState
    (by decide)

end EnergySim
